import Mathlib

/-!
Verification development for an order-k finite-context model codebase
(assignment1: `fcm.cpp`, `generator.cpp`; assignment2: `MetaClass_NSmooth.cpp`,
`MetaClass_C.cpp`).

The C++ data structures are embedded shallowly:

* `std::unordered_map` becomes an association list (`List (key × value)`);
  `operator[]` on a non-const map, which default-inserts a missing key, is
  modelled by `getOrInsert`, which returns the (possibly default) value
  together with the possibly extended map — this keeps the C++ side effect
  of read accesses visible.
* `double` values are modelled as `ℚ` (exact arithmetic; IEEE rounding of
  individual operations is not modelled).
* the C++ conversion `double → int`, which truncates toward zero, is
  modelled by `cppTrunc` via `Int.tdiv`.
* `log2` on doubles is modelled on extended reals (`EReal`) by `log2E`,
  with `log2E 0 = ⊥` matching IEEE `log2(0.0) = -inf`.
* sequences are `List Char`; the multi-character escape token `"\n"` of
  `generator.cpp` is the two-character list `['\\', 'n']`.

Loops with `size_t` arithmetic that underflows when the sequence is shorter
than `k` (undefined behavior in the source) are embedded with `Nat`
subtraction; every theorem below that touches such a loop does so only in
the regime where the C++ behavior is well defined.
-/

set_option maxRecDepth 10000

/-- Lookup in an association list (the pure part of `unordered_map` access). -/
def alookup {α β : Type} [DecidableEq α] : List (α × β) → α → Option β
  | [], _ => none
  | (k, v) :: rest, key => if k = key then some v else alookup rest key

/-- `unordered_map::operator[]` on a non-const map: returns the stored value,
or default-inserts `d` and returns it; the second component is the map after
the access. -/
def getOrInsert {α β : Type} [DecidableEq α] (m : List (α × β)) (key : α) (d : β) :
    β × List (α × β) :=
  match alookup m key with
  | some v => (v, m)
  | none => (d, m ++ [(key, d)])

/-- Overwrite the value stored at `key` (used after `getOrInsert`, so the key
is present; on an absent key this is the identity). -/
def aset {α β : Type} [DecidableEq α] : List (α × β) → α → β → List (α × β)
  | [], _, _ => []
  | (k, w) :: rest, key, v =>
      if k = key then (k, v) :: rest else (k, w) :: aset rest key v

/-- The C++ conversion `double → int`: truncation toward zero. -/
def cppTrunc (q : ℚ) : ℤ := q.num.tdiv q.den

/-! ## `assignment1/fcm.cpp`: class `FiniteContextModel` -/

/-- The state of `FiniteContextModel`: Markov order `k`, smoothing `alpha`,
`frequency_table : unordered_map<string, unordered_map<char,int>>` and
`context_counts : unordered_map<string, int>`. -/
structure FiniteContextModel where
  k : ℕ
  alpha : ℚ
  frequency_table : List (List Char × List (Char × ℕ))
  context_counts : List (List Char × ℕ)
deriving DecidableEq

/-- `FiniteContextModel::getSigma`: the number of distinct characters of the
text, collected in first-occurrence order. -/
def getSigma (text : List Char) : ℕ :=
  (text.foldl (fun syms c => if c ∈ syms then syms else syms ++ [c]) []).length

/-- One iteration of the training loop of `FiniteContextModel::train`:
`frequency_table[context][next_symbol]++; context_counts[context]++;`
with `context = text.substr(i, k)` and `next_symbol = text[i + k]`. -/
def FiniteContextModel.trainStep (m : FiniteContextModel) (text : List Char) (i : ℕ) :
    FiniteContextModel :=
  let context := (text.drop i).take m.k
  let next_symbol := text.getD (i + m.k) 'A'
  let p1 := getOrInsert m.frequency_table context []
  let p2 := getOrInsert p1.1 next_symbol 0
  let ft := aset p1.2 context (aset p2.2 next_symbol (p2.1 + 1))
  let p3 := getOrInsert m.context_counts context 0
  { m with frequency_table := ft, context_counts := aset p3.2 context (p3.1 + 1) }

/-- `FiniteContextModel::train`: the loop `for i = 0; i + k < text.size()`,
i.e. over `i < text.length - k` in `Nat` arithmetic. -/
def FiniteContextModel.train (m : FiniteContextModel) (text : List Char) :
    FiniteContextModel :=
  (List.range (text.length - m.k)).foldl (fun acc i => acc.trainStep text i) m

/-- `FiniteContextModel::probability`:
`int count_symbol = frequency_table[context][symbol] + alpha;`
`int count_context = context_counts[context] + alpha * sigma;`
`return (double)count_symbol / count_context;`
The `int` declarations truncate the smoothed counts toward zero, and the
`operator[]` accesses default-insert missing keys, so the call returns the
value together with the mutated model state. (When the truncated denominator
is `0` the C++ integer division is undefined behavior; the embedding then
returns `0` by the `ℚ` convention, and no theorem below relies on that case.) -/
def FiniteContextModel.probability (m : FiniteContextModel) (context : List Char)
    (symbol : Char) (sigma : ℕ) : ℚ × FiniteContextModel :=
  let p1 := getOrInsert m.frequency_table context []
  let p2 := getOrInsert p1.1 symbol 0
  let ft := aset p1.2 context p2.2
  let count_symbol : ℤ := cppTrunc ((p2.1 : ℚ) + m.alpha)
  let p3 := getOrInsert m.context_counts context 0
  let count_context : ℤ := cppTrunc ((p3.1 : ℚ) + m.alpha * (sigma : ℚ))
  ((count_symbol : ℚ) / (count_context : ℚ),
   { m with frequency_table := ft, context_counts := p3.2 })

/-- The logical count `frequency_table[context][symbol]` with absent keys
reading as `0` (the value `operator[]` would produce). -/
def FiniteContextModel.countOf (m : FiniteContextModel) (context : List Char)
    (symbol : Char) : ℕ :=
  (alookup ((alookup m.frequency_table context).getD []) symbol).getD 0

/-- The logical total `context_counts[context]` with absent keys reading as `0`. -/
def FiniteContextModel.totalOf (m : FiniteContextModel) (context : List Char) : ℕ :=
  (alookup m.context_counts context).getD 0

/-- The value returned by `FiniteContextModel::probability`, as a pure
function of the logical counts. -/
def FiniteContextModel.probValue (m : FiniteContextModel) (context : List Char)
    (symbol : Char) (sigma : ℕ) : ℚ :=
  ((cppTrunc ((m.countOf context symbol : ℚ) + m.alpha) : ℤ) : ℚ) /
    ((cppTrunc ((m.totalOf context : ℚ) + m.alpha * (sigma : ℚ)) : ℤ) : ℚ)

/-- `FiniteContextModel::train` wrapped in `Option` to make explicit that the
source performs no validation whatsoever and always returns normally: there is
no code path that signals a `DomainError` (or any other error). -/
def FiniteContextModel.trainE (m : FiniteContextModel) (text : List Char) :
    Option FiniteContextModel :=
  some (m.train text)

example :
    (FiniteContextModel.train ⟨1, 1, [], []⟩ ['A', 'B', 'A', 'B']).frequency_table
      = [(['A'], [('B', 2)]), (['B'], [('A', 1)])] := by decide

/-! ## `assignment1/generator.cpp`: class `Generator`

Tokens are strings here (a single character, or the two-character escape
`"\n"`, written `['\\', 'n']`), so the frequency table maps a context string
to counts per token string. -/

/-- The state of `Generator` after `loadModel`: parameters plus the loaded
`frequency_table`, `context_counts` and `unique_chars`. -/
structure Generator where
  k : ℕ
  alpha : ℚ
  prior : List Char
  size : ℕ
  frequency_table : List (List Char × List (List Char × ℕ))
  context_counts : List (List Char × ℕ)
  unique_chars : ℕ

/-- `Generator::build_probability_table`: for every context of the frequency
table, the list of `(token, (frequency + alpha) / (context_count + alpha * unique_chars))`
pairs over the tokens recorded for that context (and only those). -/
def Generator.build_probability_table (g : Generator) :
    List (List Char × List (List Char × ℚ)) :=
  g.frequency_table.map fun p =>
    let context_count := (alookup g.context_counts p.1).getD 0
    (p.1, p.2.map fun q =>
      (q.1, ((q.2 : ℚ) + g.alpha) / ((context_count : ℚ) + g.alpha * (g.unique_chars : ℚ))))

/-- The descending sort by probability performed by `Generator::generateText`
(`std::sort` with comparator `a.second > b.second`), embedded as an insertion
sort. `std::sort` leaves the relative order of tied elements unspecified; the
theorems below use it only where every correct descending sort agrees. -/
def insertDesc (x : List Char × ℚ) : List (List Char × ℚ) → List (List Char × ℚ)
  | [] => [x]
  | y :: ys => if x.2 > y.2 then x :: y :: ys else y :: insertDesc x ys

/-- See `insertDesc`. -/
def sortDesc (l : List (List Char × ℚ)) : List (List Char × ℚ) :=
  l.foldr insertDesc []

/-- The inverse-CDF selection loop of `Generator::generateText`: walk the
sorted candidates accumulating probability, return the first token whose
cumulative probability exceeds the draw; if none does, `next_string` keeps
its initial empty value. -/
def pickToken (r : ℚ) : List (List Char × ℚ) → ℚ → List Char
  | [], _ => []
  | (s, p) :: rest, cum =>
      let cum2 := cum + p
      if r < cum2 then s else pickToken r rest cum2

/-- The generation loop of `Generator::generateText`. `fuel` is the number of
remaining iterations (`size - i`), `step` indexes the stream `randoms` of
uniform draws (`(double)rand() / RAND_MAX`), `context` and `acc` are the
current window and the accumulated output. The two `break` statements of the
source (empty context, no probabilities for the context) return the output
accumulated so far. -/
def Generator.genLoop (g : Generator) (pt : List (List Char × List (List Char × ℚ)))
    (randoms : ℕ → ℚ) :
    ℕ → ℕ → List Char → List Char → List Char
  | 0, _, _, acc => acc
  | fuel + 1, step, context, acc =>
      if context = [] then acc
      else
        let probabilities := (alookup pt context).getD []
        if probabilities = [] then acc
        else
          let sorted := sortDesc probabilities
          let r := randoms step
          let next_string := pickToken r sorted 0
          let acc2 := acc ++ next_string
          let context2 :=
            if next_string = ['\\', 'n'] then context.drop 1 ++ ['\\', 'n']
            else if g.k ≤ context.length then context.drop 1 ++ next_string
            else context ++ next_string
          g.genLoop pt randoms fuel (step + 1) context2 acc2

/-- `Generator::generateText`: `size` iterations starting from the prior
context, with the prior as the initial output. -/
def Generator.generateText (g : Generator) (pt : List (List Char × List (List Char × ℚ)))
    (randoms : ℕ → ℚ) : List Char :=
  g.genLoop pt randoms g.size 0 g.prior g.prior

/-! ### Association-list lemmas -/

theorem cppTrunc_eq_floor {q : ℚ} (h : 0 ≤ q) : cppTrunc q = ⌊q⌋ := by
  rw [Rat.floor_def]
  unfold cppTrunc
  exact Int.tdiv_eq_ediv (Rat.num_nonneg.mpr h) (by positivity)

theorem getOrInsert_fst {α β : Type} [DecidableEq α] (m : List (α × β)) (key : α) (d : β) :
    (getOrInsert m key d).1 = (alookup m key).getD d := by
  unfold getOrInsert
  cases alookup m key <;> simp

theorem alookup_append_single {α β : Type} [DecidableEq α] (m : List (α × β))
    (key k' : α) (d : β) :
    alookup (m ++ [(key, d)]) k'
      = ((alookup m k').orElse fun _ => if key = k' then some d else none) := by
  induction m with
  | nil => simp [alookup]
  | cons hd tl ih =>
      by_cases h : hd.1 = k' <;> simp [alookup, h, ih]

theorem alookup_getOrInsert_self {α β : Type} [DecidableEq α] (m : List (α × β))
    (key : α) (d : β) :
    alookup (getOrInsert m key d).2 key = some ((alookup m key).getD d) := by
  unfold getOrInsert
  cases h : alookup m key with
  | some v => simp [h]
  | none => simp [alookup_append_single, h]

theorem alookup_getOrInsert_ne {α β : Type} [DecidableEq α] (m : List (α × β))
    (key k' : α) (d : β) (hne : key ≠ k') :
    alookup (getOrInsert m key d).2 k' = alookup m k' := by
  unfold getOrInsert
  cases h : alookup m key with
  | some v => rfl
  | none => simp [alookup_append_single, hne]

theorem alookup_aset_self {α β : Type} [DecidableEq α] (m : List (α × β))
    (key : α) (v : β) :
    alookup (aset m key v) key = (alookup m key).map fun _ => v := by
  induction m with
  | nil => simp [aset, alookup]
  | cons hd tl ih =>
      by_cases h : hd.1 = key <;> simp [aset, alookup, h, ih]

theorem alookup_aset_ne {α β : Type} [DecidableEq α] (m : List (α × β))
    (key k' : α) (v : β) (hne : key ≠ k') :
    alookup (aset m key v) k' = alookup m k' := by
  induction m with
  | nil => rfl
  | cons hd tl ih =>
      by_cases h : hd.1 = key <;> by_cases h2 : hd.1 = k' <;>
        simp_all [aset, alookup]

/-! ### The value and the state effect of `probability` -/

/-- The value returned by `FiniteContextModel::probability` is the pure
function `probValue` of the logical counts. -/
theorem FiniteContextModel.probability_fst (m : FiniteContextModel)
    (context : List Char) (symbol : Char) (sigma : ℕ) :
    (m.probability context symbol sigma).1 = m.probValue context symbol sigma := by
  unfold FiniteContextModel.probability FiniteContextModel.probValue
    FiniteContextModel.countOf FiniteContextModel.totalOf
  simp [getOrInsert_fst]

/-- A `probability` query preserves every logical count: the default-inserted
entries all carry the value `0`, which is also what an absent key reads as. -/
theorem FiniteContextModel.probability_countOf (m : FiniteContextModel)
    (context : List Char) (symbol : Char) (sigma : ℕ) (c : List Char) (s : Char) :
    ((m.probability context symbol sigma).2).countOf c s = m.countOf c s := by
  simp only [FiniteContextModel.probability, FiniteContextModel.countOf]
  by_cases hc : context = c
  · subst hc
    rw [alookup_aset_self, alookup_getOrInsert_self]
    simp only [Option.map_some', Option.getD_some, getOrInsert_fst]
    by_cases hs : symbol = s
    · subst hs
      rw [alookup_getOrInsert_self]
      simp
    · rw [alookup_getOrInsert_ne _ _ _ _ hs]
  · rw [alookup_aset_ne _ _ _ _ hc, alookup_getOrInsert_ne _ _ _ _ hc]

/-- A `probability` query preserves every logical context total. -/
theorem FiniteContextModel.probability_totalOf (m : FiniteContextModel)
    (context : List Char) (symbol : Char) (sigma : ℕ) (c : List Char) :
    ((m.probability context symbol sigma).2).totalOf c = m.totalOf c := by
  simp only [FiniteContextModel.probability, FiniteContextModel.totalOf]
  by_cases hc : context = c
  · subst hc
    rw [alookup_getOrInsert_self]
    cases alookup m.context_counts context <;> simp
  · rw [alookup_getOrInsert_ne _ _ _ _ hc]

/-! ## `assignment2/MetaClass_NSmooth.cpp`: class `MarkovModel` -/

/-- The state of `MarkovModel`: context size `k`, smoothing `alpha`, the
fixed `alphabet_size = 4`, and the count table
`counts : unordered_map<string, unordered_map<char, int>>`. -/
structure MarkovModel where
  k : ℕ
  alpha : ℚ
  alphabet_size : ℕ
  counts : List (List Char × List (Char × ℕ))
deriving DecidableEq

/-- The `MarkovModel` constructor: `alphabet_size` is fixed at 4 and the count
table starts empty. -/
def MarkovModel.mk0 (context_size : ℕ) (smoothing_param : ℚ) : MarkovModel :=
  ⟨context_size, smoothing_param, 4, []⟩

/-- `MarkovModel::train`: `counts[context][next_symbol]++` for
`i < sequence.length() - k`. The source loop uses `size_t` arithmetic, which
underflows when `sequence.length() < k` (undefined behavior); the embedding
uses `Nat` subtraction and is only quoted for sequences of length ≥ `k`. -/
def MarkovModel.train (m : MarkovModel) (sequence : List Char) : MarkovModel :=
  (List.range (sequence.length - m.k)).foldl
    (fun acc i =>
      let context := (sequence.drop i).take acc.k
      let next_symbol := sequence.getD (i + acc.k) 'A'
      let p1 := getOrInsert acc.counts context []
      let p2 := getOrInsert p1.1 next_symbol 0
      { acc with counts := aset p1.2 context (aset p2.2 next_symbol (p2.1 + 1)) })
    m

/-- `MarkovModel::estimate_bits`: for every window `i ≤ sequence.size() - k`
look up the k-mer `sequence.substr(i, k)` in the count table and add
`it->second.size()` — the number of distinct symbols recorded for that
context — when found, else `log2(1) = 0`. No probability is ever consulted.
(As in `train`, the `size_t` loop bound is quoted only for length ≥ `k`;
every use below is behind `calculate_nrc`'s length guard.) -/
def MarkovModel.estimate_bits (m : MarkovModel) (sequence : List Char) : ℚ :=
  ((List.range (sequence.length - m.k + 1)).map fun i =>
    let k2 := (sequence.drop i).take m.k
    match alookup m.counts k2 with
    | some inner => (inner.length : ℚ)
    | none => 0).sum

/-- `MarkovModel::calculate_nrc`: sequences no longer than `k` get the fixed
score `1.0`; otherwise `estimate_bits(sequence) / (2.0 * sequence.length())`. -/
def MarkovModel.calculate_nrc (m : MarkovModel) (sequence : List Char) : ℚ :=
  if sequence.length ≤ m.k then 1
  else m.estimate_bits sequence / (2 * (sequence.length : ℚ))

/-- `calculate_nrc_parallel`: one task per reference entry, each computing
`model.calculate_nrc(entry.second)`; results are collected in input order
(the futures are joined in the order they were launched). -/
def calculate_nrc_parallel (reference_db : List (List Char × List Char))
    (model : MarkovModel) : List (List Char × ℚ) :=
  reference_db.map fun entry => (entry.1, model.calculate_nrc entry.2)

/-- The postcondition `std::sort` (with `OrganismMatch::operator<`, which
compares only the NRC value) guarantees for the result list: consecutive
elements are in nondecreasing NRC order. Nothing more is guaranteed: the
relative order of tied elements is unspecified. -/
def sortedByNrc (l : List (List Char × ℚ)) : Prop :=
  l.Pairwise fun a b => a.2 ≤ b.2

/-- The full contract of the `std::sort` call in `main`: the output is a
permutation of the scored results, in nondecreasing NRC order. Every list
satisfying this is a possible output of the unstable sort. -/
def StdSortResult (input output : List (List Char × ℚ)) : Prop :=
  input.Perm output ∧ sortedByNrc output

/-- Stable ascending insertion by NRC (ties keep input order): the ranking
the specification prescribes. This follows the spec's words, for comparison
with the code's unstable sort — it is not part of the source. -/
def insertAscStable (x : List Char × ℚ) : List (List Char × ℚ) → List (List Char × ℚ)
  | [] => [x]
  | y :: ys => if x.2 ≤ y.2 then x :: y :: ys else y :: insertAscStable x ys

/-- See `insertAscStable`. Modelled from the spec: "returns entries sorted
ascending by NRC, ties broken by original input order (stable sort)". -/
def claimRank (l : List (List Char × ℚ)) : List (List Char × ℚ) :=
  l.foldr insertAscStable []

/-! ## `assignment2/MetaClass_C.cpp` -/

/-- `train_markov_model` of `MetaClass_C.cpp`: count every k-mer of the
sample (`i ≤ sample.size() - kmer_size`), then replace every count by
`log2(count + 1)` truncated to `int` — i.e. `Nat.log 2 (count + 1)`.
(The `size_t` loop is quoted only for samples of length ≥ `kmer_size`.) -/
def train_markov_model (kmer_size : ℕ) (sample : List Char) : List (List Char × ℕ) :=
  let kmer_counts :=
    (List.range (sample.length - kmer_size + 1)).foldl
      (fun acc i =>
        let kmer := (sample.drop i).take kmer_size
        let p := getOrInsert acc kmer 0
        aset p.2 kmer (p.1 + 1))
      []
  kmer_counts.map fun p => (p.1, Nat.log 2 (p.2 + 1))

/-- `estimate_compression` of `MetaClass_C.cpp`: sum the stored
`log2(count+1)` value of every k-mer of the sequence that appears in the
model, `log2(1) = 0` for the rest. No conditional probability appears. -/
def estimate_compression (kmer_size : ℕ) (sequence : List Char)
    (model : List (List Char × ℕ)) : ℚ :=
  ((List.range (sequence.length - kmer_size + 1)).map fun i =>
    let kmer := (sequence.drop i).take kmer_size
    match alookup model kmer with
    | some v => (v : ℚ)
    | none => 0).sum

/-! ## Logarithms and the spec-side compression estimate -/

/-- IEEE `log2` on nonnegative doubles, valued in the extended reals:
`log2E 0 = ⊥` matches `log2(0.0) = -inf`. -/
noncomputable def log2E (q : ℚ) : EReal :=
  if q = 0 then ⊥ else ((Real.logb 2 (q : ℝ) : ℝ) : EReal)

/-- The body of the `compute_aic` loop of `fcm.cpp`:
`entropy += log2(probability(context, next_symbol, sigma))`, threading the
model state mutated by the `probability` call. -/
noncomputable def aicStep (kk sigma : ℕ) (text : List Char)
    (acc : EReal × FiniteContextModel) (i : ℕ) : EReal × FiniteContextModel :=
  let context := (text.drop i).take kk
  let next_symbol := text.getD (i + kk) 'A'
  let pm := acc.2.probability context next_symbol sigma
  (acc.1 + log2E pm.1, pm.2)

/-- `FiniteContextModel::compute_aic`: `sigma = getSigma(text)`, then
`entropy += log2(probability(context_i, symbol_i, sigma))` over the same
sliding windows as training (each `probability` call threading the mutated
model state), and finally `-entropy / (text.size() - k)`. The return value
lives in `EReal` because `log2(0.0) = -inf` flows through the sum unchecked. -/
noncomputable def FiniteContextModel.compute_aic (m : FiniteContextModel)
    (text : List Char) : EReal × FiniteContextModel :=
  let sigma := getSigma text
  let r := (List.range (text.length - m.k)).foldl (aicStep m.k sigma text)
    ((0 : EReal), m)
  (-r.1 / (((text.length - m.k : ℕ) : ℝ) : EReal), r.2)

/-- The logical count `counts[context][symbol]` of a `MarkovModel`, absent
keys reading as `0`. -/
def MarkovModel.countOf (m : MarkovModel) (context : List Char) (symbol : Char) : ℕ :=
  (alookup ((alookup m.counts context).getD []) symbol).getD 0

/-- The logical total of all counts recorded for a context of a `MarkovModel`. -/
def MarkovModel.totalOf (m : MarkovModel) (context : List Char) : ℕ :=
  (((alookup m.counts context).getD []).map fun p => p.2).sum

/-- Modelled from the spec (§4.4), for comparison with the code's
`estimate_bits`: `compressionEstimate(model, sequence)` is the sum over the
valid k-windows (context `sequence[i..i+k)`, symbol `sequence[i+k]`) of
`-log2 probability(context_i, symbol_i)` with the smoothed probability
`(count + alpha) / (total + alpha * |Alphabet|)` computed exactly. -/
noncomputable def specCompressionEstimate (m : MarkovModel) (sequence : List Char) :
    EReal :=
  ((List.range (sequence.length - m.k)).map fun i =>
    let context := (sequence.drop i).take m.k
    let symbol := sequence.getD (i + m.k) 'A'
    Neg.neg (log2E (((m.countOf context symbol : ℚ) + m.alpha) /
      ((m.totalOf context : ℚ) + m.alpha * (m.alphabet_size : ℚ))))).sum

/-! ## Shared lemmas -/

theorem FiniteContextModel.trainStep_k (m : FiniteContextModel) (text : List Char)
    (i : ℕ) : (m.trainStep text i).k = m.k := rfl

theorem FiniteContextModel.trainStep_alpha (m : FiniteContextModel) (text : List Char)
    (i : ℕ) : (m.trainStep text i).alpha = m.alpha := rfl

theorem FiniteContextModel.train_k (m : FiniteContextModel) (text : List Char) :
    (m.train text).k = m.k := by
  unfold FiniteContextModel.train
  generalize List.range (text.length - m.k) = l
  induction l generalizing m with
  | nil => rfl
  | cons hd tl ih => rw [List.foldl_cons, ih, FiniteContextModel.trainStep_k]

theorem FiniteContextModel.train_alpha (m : FiniteContextModel) (text : List Char) :
    (m.train text).alpha = m.alpha := by
  unfold FiniteContextModel.train
  generalize List.range (text.length - m.k) = l
  induction l generalizing m with
  | nil => rfl
  | cons hd tl ih => rw [List.foldl_cons, ih, FiniteContextModel.trainStep_alpha]

/-- Two models agreeing on smoothing and on every logical count and total;
all query results depend only on this data. -/
def FiniteContextModel.sameTables (m1 m2 : FiniteContextModel) : Prop :=
  m1.alpha = m2.alpha
    ∧ (∀ c s, m1.countOf c s = m2.countOf c s)
    ∧ ∀ c, m1.totalOf c = m2.totalOf c

theorem FiniteContextModel.sameTables_refl (m : FiniteContextModel) :
    m.sameTables m := ⟨rfl, fun _ _ => rfl, fun _ => rfl⟩

theorem FiniteContextModel.probValue_congr {m1 m2 : FiniteContextModel}
    (h : m1.sameTables m2) (context : List Char) (symbol : Char) (sigma : ℕ) :
    m1.probValue context symbol sigma = m2.probValue context symbol sigma := by
  unfold FiniteContextModel.probValue
  rw [h.1, h.2.1, h.2.2]

theorem FiniteContextModel.probability_sameTables (m : FiniteContextModel)
    (context : List Char) (symbol : Char) (sigma : ℕ) :
    ((m.probability context symbol sigma).2).sameTables m :=
  ⟨rfl, fun c s => m.probability_countOf context symbol sigma c s,
   fun c => m.probability_totalOf context symbol sigma c⟩

theorem FiniteContextModel.sameTables_trans {m1 m2 m3 : FiniteContextModel}
    (h12 : m1.sameTables m2) (h23 : m2.sameTables m3) : m1.sameTables m3 :=
  ⟨h12.1.trans h23.1, fun c s => (h12.2.1 c s).trans (h23.2.1 c s),
   fun c => (h12.2.2 c).trans (h23.2.2 c)⟩

/-! ## Claim theorems: the worked example and the truncation behavior -/

/-- The worked-example model: k = 1, alpha = 1, trained on `"ABAB"`. -/
def mABAB : FiniteContextModel :=
  FiniteContextModel.train ⟨1, 1, [], []⟩ ['A', 'B', 'A', 'B']

/-- C3: training `"ABAB"` with k = 1, alpha = 1 yields counts "A"→{B:2} and
"B"→{A:1}, and with alphabet {A,B} (sigma = 2) the probabilities are
`probability("A",'B') = 3/4` and `probability("A",'A') = 1/4`, summing to 1. -/
theorem worked_example_ABAB :
    mABAB.frequency_table = [(['A'], [('B', 2)]), (['B'], [('A', 1)])]
    ∧ (mABAB.probability ['A'] 'B' 2).1 = 3 / 4
    ∧ (mABAB.probability ['A'] 'A' 2).1 = 1 / 4
    ∧ (mABAB.probability ['A'] 'B' 2).1 + (mABAB.probability ['A'] 'A' 2).1 = 1 := by
  have halpha : mABAB.alpha = 1 := FiniteContextModel.train_alpha _ _
  have hcB : mABAB.countOf ['A'] 'B' = 2 := by decide
  have hcA : mABAB.countOf ['A'] 'A' = 0 := by decide
  have ht : mABAB.totalOf ['A'] = 2 := by decide
  have hB : (mABAB.probability ['A'] 'B' 2).1 = 3 / 4 := by
    rw [FiniteContextModel.probability_fst]
    unfold FiniteContextModel.probValue
    rw [halpha, hcB, ht, cppTrunc_eq_floor (by norm_num), cppTrunc_eq_floor (by norm_num)]
    norm_num
  have hA : (mABAB.probability ['A'] 'A' 2).1 = 1 / 4 := by
    rw [FiniteContextModel.probability_fst]
    unfold FiniteContextModel.probValue
    rw [halpha, hcA, ht, cppTrunc_eq_floor (by norm_num), cppTrunc_eq_floor (by norm_num)]
    norm_num
  refine ⟨by decide, hB, hA, ?_⟩
  rw [hA, hB]
  norm_num

/-- The model of C2's failing input: k = 1, alpha = 1/2, trained on `"AB"`. -/
def mAB : FiniteContextModel :=
  FiniteContextModel.train ⟨1, 1 / 2, [], []⟩ ['A', 'B']

/-- C2 (failing-input evaluation): with alpha = 1/2 and alphabet {A,B}
(sigma = 2), the probabilities of the two alphabet symbols after context "A"
sum to 1/2, not 1 — the `int` truncation in `probability` destroys the
normalization the specification's invariant promises. -/
theorem probability_sum_over_alphabet_ne_one :
    (mAB.probability ['A'] 'A' 2).1 + (mAB.probability ['A'] 'B' 2).1 = 1 / 2
    ∧ ((1 : ℚ) / 2) ≠ 1 := by
  have halpha : mAB.alpha = 1 / 2 := FiniteContextModel.train_alpha _ _
  have hcB : mAB.countOf ['A'] 'B' = 1 := by decide
  have hcA : mAB.countOf ['A'] 'A' = 0 := by decide
  have ht : mAB.totalOf ['A'] = 1 := by decide
  have hB : (mAB.probability ['A'] 'B' 2).1 = 1 / 2 := by
    rw [FiniteContextModel.probability_fst]
    unfold FiniteContextModel.probValue
    rw [halpha, hcB, ht, cppTrunc_eq_floor (by norm_num), cppTrunc_eq_floor (by norm_num)]
    rw [show ((1:ℕ):ℚ) + 1/2 = 3/2 by norm_num, show ((1:ℕ):ℚ) + 1/2 * (2:ℕ) = 2 by push_cast; ring]
    rw [show ⌊(3:ℚ)/2⌋ = 1 by norm_num [Int.floor_eq_iff], show ⌊(2:ℚ)⌋ = 2 by norm_num]
    norm_num
  have hA : (mAB.probability ['A'] 'A' 2).1 = 0 := by
    rw [FiniteContextModel.probability_fst]
    unfold FiniteContextModel.probValue
    rw [halpha, hcA]
    rw [show ((0:ℕ):ℚ) + 1/2 = 1/2 by norm_num]
    rw [cppTrunc_eq_floor (by norm_num), show ⌊(1:ℚ)/2⌋ = 0 by norm_num [Int.floor_eq_iff]]
    norm_num
  exact ⟨by rw [hA, hB]; norm_num, by norm_num⟩

/-- C10: for nonnegative alpha, `probability` returns
`⌊count+alpha⌋ / ⌊total+alpha·sigma⌋` (the `int` conversions truncate the
smoothed numerator and denominator before the division), and consequently for
`0 ≤ alpha < 1` an unseen symbol receives probability exactly 0. -/
theorem probability_int_truncation (m : FiniteContextModel) (context : List Char)
    (symbol : Char) (sigma : ℕ) (h0 : 0 ≤ m.alpha) :
    (m.probability context symbol sigma).1
      = ((⌊(m.countOf context symbol : ℚ) + m.alpha⌋ : ℤ) : ℚ) /
        ((⌊(m.totalOf context : ℚ) + m.alpha * (sigma : ℚ)⌋ : ℤ) : ℚ)
    ∧ (m.alpha < 1 → m.countOf context symbol = 0 →
        (m.probability context symbol sigma).1 = 0) := by
  have h1 : (0 : ℚ) ≤ (m.countOf context symbol : ℚ) + m.alpha := by positivity
  have h2 : (0 : ℚ) ≤ (m.totalOf context : ℚ) + m.alpha * (sigma : ℚ) := by positivity
  constructor
  · rw [FiniteContextModel.probability_fst]
    unfold FiniteContextModel.probValue
    rw [cppTrunc_eq_floor h1, cppTrunc_eq_floor h2]
  · intro hlt hc
    rw [FiniteContextModel.probability_fst]
    unfold FiniteContextModel.probValue
    rw [hc]
    have hnum : cppTrunc (((0 : ℕ) : ℚ) + m.alpha) = 0 := by
      rw [cppTrunc_eq_floor (by positivity)]
      have hz : ((0 : ℕ) : ℚ) + m.alpha = m.alpha := by push_cast; ring
      rw [hz, Int.floor_eq_zero_iff, Set.mem_Ico]
      exact ⟨h0, hlt⟩
    rw [hnum]
    simp

/-- Witness for C10 at the concrete model `mAB` (alpha = 1/2): the truncation
formula applies and the unseen symbol 'A' after context "A" gets probability 0. -/
theorem probability_int_truncation_witness :
    0 ≤ mAB.alpha ∧ (mAB.probability ['A'] 'A' 2).1 = 0 := by
  have halpha : mAB.alpha = 1 / 2 := FiniteContextModel.train_alpha _ _
  have h0 : 0 ≤ mAB.alpha := by rw [halpha]; norm_num
  exact ⟨h0, (probability_int_truncation mAB ['A'] 'A' 2 h0).2
    (by rw [halpha]; norm_num) (by decide)⟩

/-! ## The `compute_aic` fold: value and state -/

theorem aic_foldl_aux (m : FiniteContextModel) (text : List Char) (sigma kk : ℕ)
    (l : List ℕ) :
    ∀ (a : EReal) (s : FiniteContextModel), s.sameTables m →
      (l.foldl (aicStep kk sigma text) (a, s)).1
        = a + ((l.map fun i =>
            log2E (m.probValue ((text.drop i).take kk) (text.getD (i + kk) 'A') sigma)).sum)
      ∧ ((l.foldl (aicStep kk sigma text) (a, s)).2).sameTables m := by
  induction l with
  | nil =>
      intro a s hs
      exact ⟨by simp, hs⟩
  | cons hd tl ih =>
      intro a s hs
      have hval : (s.probability ((text.drop hd).take kk) (text.getD (hd + kk) 'A') sigma).1
          = m.probValue ((text.drop hd).take kk) (text.getD (hd + kk) 'A') sigma := by
        rw [FiniteContextModel.probability_fst]
        exact FiniteContextModel.probValue_congr hs _ _ _
      have hst : ((s.probability ((text.drop hd).take kk) (text.getD (hd + kk) 'A')
          sigma).2).sameTables m :=
        FiniteContextModel.sameTables_trans
          (s.probability_sameTables ((text.drop hd).take kk) (text.getD (hd + kk) 'A') sigma) hs
      have hstep : aicStep kk sigma text (a, s) hd
          = (a + log2E (s.probability ((text.drop hd).take kk)
              (text.getD (hd + kk) 'A') sigma).1,
             (s.probability ((text.drop hd).take kk) (text.getD (hd + kk) 'A') sigma).2) := rfl
      rw [List.foldl_cons, hstep]
      obtain ⟨h1, h2⟩ := ih (a + log2E (s.probability ((text.drop hd).take kk)
        (text.getD (hd + kk) 'A') sigma).1)
        ((s.probability ((text.drop hd).take kk) (text.getD (hd + kk) 'A') sigma).2) hst
      refine ⟨?_, h2⟩
      rw [h1, hval, List.map_cons, List.sum_cons, add_assoc]

/-- The value `compute_aic` returns is determined by the logical tables alone:
it is `-(Σ_i log2 probValue(context_i, symbol_i, sigma)) / (n - k)`, and the
final model state agrees with the input on all logical tables. -/
theorem FiniteContextModel.compute_aic_eq (m : FiniteContextModel) (text : List Char) :
    (m.compute_aic text).1
      = -((((List.range (text.length - m.k)).map fun i =>
          log2E (m.probValue ((text.drop i).take m.k) (text.getD (i + m.k) 'A')
            (getSigma text))).sum))
        / (((text.length - m.k : ℕ) : ℝ) : EReal)
    ∧ ((m.compute_aic text).2).sameTables m := by
  obtain ⟨h1, h2⟩ := aic_foldl_aux m text (getSigma text) m.k
    (List.range (text.length - m.k)) 0 m (FiniteContextModel.sameTables_refl m)
  simp only [FiniteContextModel.compute_aic]
  exact ⟨by rw [h1, zero_add], h2⟩

/-! ## Claim theorems: frame effects of queries and training validation -/

/-- C4 (counterexample): querying `probability` for a context that was never
trained default-inserts entries into the raw hash maps — the
`FrequencyTable` of a fresh model is no longer empty after a single query,
so the tables are not literally identical before and after the call. -/
theorem probability_mutates_raw_tables :
    ((FiniteContextModel.probability ⟨1, 1, [], []⟩ ['A'] 'B' 2).2).frequency_table
        ≠ ([] : List (List Char × List (Char × ℕ)))
    ∧ ((FiniteContextModel.probability ⟨1, 1, [], []⟩ ['A'] 'B' 2).2).context_counts
        ≠ ([] : List (List Char × ℕ)) := by
  exact ⟨by decide, by decide⟩

/-- C4 (amended): a `probability` query (and a whole `compute_aic` traversal)
preserves the model's logical content — every count, every context total,
`k` and `alpha`, and hence every future query result — even though the raw
hash maps may gain default-inserted zero entries. -/
theorem probability_preserves_logical_tables (m : FiniteContextModel)
    (context : List Char) (symbol : Char) (sigma : ℕ) (text : List Char)
    (c : List Char) (s : Char) (sigma2 : ℕ) :
    ((m.probability context symbol sigma).2).countOf c s = m.countOf c s
    ∧ ((m.probability context symbol sigma).2).totalOf c = m.totalOf c
    ∧ ((m.probability context symbol sigma).2).k = m.k
    ∧ ((m.probability context symbol sigma).2).alpha = m.alpha
    ∧ ((m.probability context symbol sigma).2).probValue c s sigma2
        = m.probValue c s sigma2
    ∧ ((m.compute_aic text).2).countOf c s = m.countOf c s
    ∧ ((m.compute_aic text).2).totalOf c = m.totalOf c := by
  have haic := (m.compute_aic_eq text).2
  exact ⟨m.probability_countOf context symbol sigma c s,
    m.probability_totalOf context symbol sigma c,
    rfl, rfl,
    FiniteContextModel.probValue_congr (m.probability_sameTables context symbol sigma) c s sigma2,
    haic.2.1 c s, haic.2.2 c⟩

/-- C5 (counterexample): training a model with k = 3 on the two-character
sequence "AB" (`len(sequence) ≤ k`) does not fail with a `DomainError`:
`train` returns normally and leaves the model exactly as it was. -/
theorem train_short_returns_ok_unchanged :
    FiniteContextModel.trainE ⟨3, 1, [], []⟩ ['A', 'B']
      = some (⟨3, 1, [], []⟩ : FiniteContextModel) := rfl

/-- C5 (amended): `train` performs no validation at all — it always returns
normally (for any sequence and any k), and when `len(sequence) ≤ k` the loop
body never runs, so the model is returned unchanged. -/
theorem train_never_fails (m : FiniteContextModel) (text : List Char) :
    (m.trainE text).isSome = true
    ∧ (text.length ≤ m.k → m.trainE text = some m) := by
  constructor
  · rfl
  · intro h
    unfold FiniteContextModel.trainE FiniteContextModel.train
    rw [Nat.sub_eq_zero_of_le h]
    rfl

/-- Witness for C5 (amended) at k = 3 and the length-2 sequence "AB". -/
theorem train_never_fails_witness :
    ((FiniteContextModel.trainE ⟨3, 1, [], []⟩ ['A', 'B']).isSome = true)
    ∧ FiniteContextModel.trainE ⟨3, 1, [], []⟩ ['A', 'B']
        = some (⟨3, 1, [], []⟩ : FiniteContextModel) :=
  ⟨(train_never_fails ⟨3, 1, [], []⟩ ['A', 'B']).1,
   (train_never_fails ⟨3, 1, [], []⟩ ['A', 'B']).2 (by decide)⟩

/-! ## Claim theorems: batch scoring of short entries -/

/-- A two-entry reference batch whose first entry is shorter than k = 10. -/
def DB6 : List (List Char × List Char) :=
  [(['X'], ['A', 'B']),
   (['Y'], ['A', 'A', 'A', 'A', 'A', 'A', 'A', 'A', 'A', 'A', 'A', 'A'])]

/-- The scorer model for `DB6`: k = 10, alpha = 0.1 (the defaults of
`MetaClass_NSmooth.cpp`), untrained. -/
def M6 : MarkovModel := MarkovModel.mk0 10 (1 / 10)

/-- C6 (counterexample): a reference entry whose sequence has length ≤ k is
not excluded and produces no per-entry error — `calculate_nrc` hands it the
numeric score 1.0 and it appears in the scored results that get ranked,
alongside the long entry of the same batch. -/
theorem short_entry_gets_score_one_in_results :
    M6.calculate_nrc ['A', 'B'] = 1
    ∧ (['X'], (1 : ℚ)) ∈ calculate_nrc_parallel DB6 M6 := by
  have h1 : M6.calculate_nrc ['A', 'B'] = 1 := by
    simp [MarkovModel.calculate_nrc, M6, MarkovModel.mk0]
  refine ⟨h1, ?_⟩
  simp [calculate_nrc_parallel, DB6, h1]

/-- C6 (amended): every entry of the batch is scored — the result list has
one numeric entry per reference in input order, and an entry whose sequence
has length ≤ k simply receives the fixed NRC score 1.0; nothing is excluded
and no diagnostics list exists. -/
theorem short_entries_scored_not_excluded (db : List (List Char × List Char))
    (m : MarkovModel) :
    (calculate_nrc_parallel db m).length = db.length
    ∧ ∀ e ∈ db, e.2.length ≤ m.k → (e.1, (1 : ℚ)) ∈ calculate_nrc_parallel db m := by
  constructor
  · simp [calculate_nrc_parallel]
  · intro e he hlen
    unfold calculate_nrc_parallel
    refine List.mem_map.mpr ⟨e, he, ?_⟩
    simp [MarkovModel.calculate_nrc, hlen]

/-- Witness for C6 (amended) at the concrete batch `DB6` with model `M6`. -/
theorem short_entries_scored_not_excluded_witness :
    (calculate_nrc_parallel DB6 M6).length = DB6.length
    ∧ (['X'], (1 : ℚ)) ∈ calculate_nrc_parallel DB6 M6 :=
  ⟨(short_entries_scored_not_excluded DB6 M6).1,
   (short_entries_scored_not_excluded DB6 M6).2 (['X'], ['A', 'B']) (by simp [DB6])
     (by simp [M6, MarkovModel.mk0])⟩

/-! ## Claim theorems: ranking order -/

/-- C8 (counterexample): the code's sort contract does not pin down tie
order. For two entries with equal NRC, the reversed list satisfies the
`std::sort` postcondition (`StdSortResult`) yet differs from the
stable-by-input-order ranking (`claimRank`) the claim prescribes — so the
code does not guarantee the claimed tie-breaking. -/
theorem std_sort_tie_order_not_stable :
    StdSortResult [(['a'], (1 : ℚ)), (['b'], 1)] [(['b'], (1 : ℚ)), (['a'], 1)]
    ∧ [(['b'], (1 : ℚ)), (['a'], 1)] ≠ claimRank [(['a'], (1 : ℚ)), (['b'], 1)] := by
  constructor
  · refine ⟨List.Perm.swap _ _ _, ?_⟩
    simp [sortedByNrc]
  · have h : claimRank [(['a'], (1 : ℚ)), (['b'], 1)] = [(['a'], (1 : ℚ)), (['b'], 1)] := by
      simp [claimRank, insertAscStable]
    rw [h]
    simp

/-- C8 (amended): what the ranking pipeline guarantees is exactly this: any
output of the final sort is a permutation of the per-entry scores
`(id, calculate_nrc(model, sequence))` — one per input entry — arranged in
nondecreasing NRC order; the order of entries with equal NRC is unspecified. -/
theorem ranking_sorted_permutation_only (model : MarkovModel)
    (db : List (List Char × List Char)) (out : List (List Char × ℚ))
    (h : StdSortResult (calculate_nrc_parallel db model) out) :
    out.Perm (db.map fun e => (e.1, model.calculate_nrc e.2))
    ∧ sortedByNrc out ∧ out.length = db.length := by
  obtain ⟨hp, hs⟩ := h
  refine ⟨hp.symm, hs, ?_⟩
  rw [← hp.length_eq]
  simp [calculate_nrc_parallel]

/-- A one-entry batch and model for the C8 witness. -/
def DB8 : List (List Char × List Char) := [(['a'], ['A', 'A'])]

/-- See `DB8`. -/
def M8 : MarkovModel := MarkovModel.mk0 1 0

/-- Witness for C8 (amended) at the singleton batch `DB8`. -/
theorem ranking_sorted_permutation_only_witness :
    ([(['a'], (0 : ℚ))] : List (List Char × ℚ)).Perm
        (DB8.map fun e => (e.1, M8.calculate_nrc e.2))
    ∧ sortedByNrc [(['a'], (0 : ℚ))]
    ∧ ([(['a'], (0 : ℚ))] : List (List Char × ℚ)).length = DB8.length := by
  have hb : M8.estimate_bits ['A', 'A'] = 0 := by
    simp [MarkovModel.estimate_bits, M8, MarkovModel.mk0, alookup, List.range_succ]
  have hnrc : M8.calculate_nrc ['A', 'A'] = 0 := by
    unfold MarkovModel.calculate_nrc
    rw [if_neg (by simp [M8, MarkovModel.mk0]), hb]
    simp
  have h : StdSortResult (calculate_nrc_parallel DB8 M8) [(['a'], (0 : ℚ))] := by
    constructor
    · have he : calculate_nrc_parallel DB8 M8 = [(['a'], (0 : ℚ))] := by
        simp [calculate_nrc_parallel, DB8, hnrc]
      rw [he]
    · simp [sortedByNrc]
  exact ranking_sorted_permutation_only M8 DB8 _ h

/-! ## Claim theorems: generation length -/

theorem Generator.genLoop_succ (g : Generator)
    (pt : List (List Char × List (List Char × ℚ))) (randoms : ℕ → ℚ)
    (fuel step : ℕ) (context acc : List Char) :
    g.genLoop pt randoms (fuel + 1) step context acc
      = if context = [] then acc
        else if (alookup pt context).getD [] = [] then acc
        else
          g.genLoop pt randoms fuel (step + 1)
            (if pickToken (randoms step) (sortDesc ((alookup pt context).getD [])) 0
                = ['\\', 'n']
              then context.drop 1 ++ ['\\', 'n']
              else if g.k ≤ context.length
                then context.drop 1
                  ++ pickToken (randoms step) (sortDesc ((alookup pt context).getD [])) 0
                else context
                  ++ pickToken (randoms step) (sortDesc ((alookup pt context).getD [])) 0)
            (acc ++ pickToken (randoms step) (sortDesc ((alookup pt context).getD [])) 0) := by
  rfl

theorem alookup_mem {α β : Type} [DecidableEq α] {l : List (α × β)} {key : α} {v : β}
    (h : alookup l key = some v) : (key, v) ∈ l := by
  induction l with
  | nil => simp [alookup] at h
  | cons hd tl ih =>
      rw [alookup] at h
      by_cases he : hd.1 = key
      · rw [if_pos he] at h
        have : hd = (key, v) := by
          cases hd
          simp_all
        simp [this]
      · rw [if_neg he] at h
        exact List.mem_cons_of_mem _ (ih h)

theorem mem_insertDesc {y x : List Char × ℚ} :
    ∀ {l : List (List Char × ℚ)}, y ∈ insertDesc x l → y = x ∨ y ∈ l := by
  intro l
  induction l with
  | nil => simp [insertDesc]
  | cons hd tl ih =>
      rw [insertDesc]
      by_cases hc : x.2 > hd.2
      · rw [if_pos hc]
        intro h
        rcases List.mem_cons.mp h with h1 | h2
        · exact Or.inl h1
        · exact Or.inr h2
      · rw [if_neg hc]
        intro h
        rcases List.mem_cons.mp h with h1 | h2
        · exact Or.inr (h1 ▸ List.mem_cons_self hd tl)
        · rcases ih h2 with h3 | h4
          · exact Or.inl h3
          · exact Or.inr (List.mem_cons_of_mem _ h4)

theorem mem_sortDesc {y : List Char × ℚ} :
    ∀ {l : List (List Char × ℚ)}, y ∈ sortDesc l → y ∈ l := by
  intro l
  induction l with
  | nil => simp [sortDesc]
  | cons hd tl ih =>
      intro h
      rcases mem_insertDesc (l := sortDesc tl) h with h1 | h2
      · exact h1 ▸ List.mem_cons_self hd tl
      · exact List.mem_cons_of_mem _ (ih h2)

theorem pickToken_result (r : ℚ) :
    ∀ (l : List (List Char × ℚ)) (cum : ℚ),
      pickToken r l cum = [] ∨ ∃ p, (pickToken r l cum, p) ∈ l := by
  intro l
  induction l with
  | nil => intro cum; exact Or.inl rfl
  | cons hd tl ih =>
      intro cum
      rw [pickToken]
      by_cases hc : r < cum + hd.2
      · right
        refine ⟨hd.2, ?_⟩
        simp [hc]
      · simp only [hc, if_false]
        rcases ih (cum + hd.2) with h1 | ⟨p, h2⟩
        · exact Or.inl h1
        · exact Or.inr ⟨p, List.mem_cons_of_mem _ h2⟩

/-- Length bounds for the generation loop: the output extends the
accumulator by at most one token-character per iteration (when every
candidate token is a single character), and never shrinks it. -/
theorem genLoop_length_bounds (g : Generator)
    (pt : List (List Char × List (List Char × ℚ))) (randoms : ℕ → ℚ)
    (hTok : ∀ p ∈ pt, ∀ q ∈ p.2, (q.1 : List Char).length = 1) :
    ∀ (fuel step : ℕ) (context acc : List Char),
      acc.length ≤ (g.genLoop pt randoms fuel step context acc).length
      ∧ (g.genLoop pt randoms fuel step context acc).length ≤ acc.length + fuel := by
  intro fuel
  induction fuel with
  | zero =>
      intro step context acc
      exact ⟨le_refl _, by rw [Generator.genLoop]; omega⟩
  | succ fuel ih =>
      intro step context acc
      rw [Generator.genLoop_succ]
      by_cases h1 : context = []
      · rw [if_pos h1]
        exact ⟨le_refl _, by omega⟩
      · rw [if_neg h1]
        by_cases h2 : (alookup pt context).getD [] = []
        · rw [if_pos h2]
          exact ⟨le_refl _, by omega⟩
        · rw [if_neg h2]
          have hnext : (pickToken (randoms step)
              (sortDesc ((alookup pt context).getD [])) 0).length ≤ 1 := by
            cases halo : alookup pt context with
            | none =>
                rw [halo] at h2
                simp at h2
            | some probs =>
                simp only [Option.getD_some]
                rcases pickToken_result (randoms step) (sortDesc probs) 0 with hp | ⟨p, hp⟩
                · rw [hp]
                  exact Nat.zero_le 1
                · have hmem := mem_sortDesc hp
                  exact le_of_eq (hTok (context, probs) (alookup_mem halo) _ hmem)
          obtain ⟨hlo, hhi⟩ := ih (step + 1)
            (if pickToken (randoms step) (sortDesc ((alookup pt context).getD [])) 0
                = ['\\', 'n']
              then context.drop 1 ++ ['\\', 'n']
              else if g.k ≤ context.length
                then context.drop 1
                  ++ pickToken (randoms step) (sortDesc ((alookup pt context).getD [])) 0
                else context
                  ++ pickToken (randoms step) (sortDesc ((alookup pt context).getD [])) 0)
            (acc ++ pickToken (randoms step) (sortDesc ((alookup pt context).getD [])) 0)
          rw [List.length_append] at hlo hhi
          constructor
          · exact le_trans (Nat.le_add_right _ _) hlo
          · omega

/-- C9 (amended): under the source's single-character tokens, the generated
text never loses the prior and gains at most `size` characters:
`len(prior) ≤ len(generateText) ≤ len(prior) + size`. Equality with the
upper bound can fail (see the counterexample): a context absent from the
probability table stops generation early, and a draw beyond the accumulated
probability mass appends nothing. -/
theorem generateText_length_bounds (g : Generator)
    (pt : List (List Char × List (List Char × ℚ))) (randoms : ℕ → ℚ)
    (hTok : ∀ p ∈ pt, ∀ q ∈ p.2, (q.1 : List Char).length = 1) :
    g.prior.length ≤ (g.generateText pt randoms).length
    ∧ (g.generateText pt randoms).length ≤ g.prior.length + g.size :=
  genLoop_length_bounds g pt randoms hTok g.size 0 g.prior g.prior

/-- The generator of the C9 counterexample: k = 1, alpha = 1, prior "A",
requested size 2; the model knows context "A" (always followed by 'B') and
nothing about context "B". -/
def G9 : Generator := ⟨1, 1, ['A'], 2, [(['A'], [(['B'], 1)])], [(['A'], 1)], 1⟩

/-- C9 (counterexample): with a valid prior (`len(prior) = k`) and n = 2,
generation emits 'B', slides to the untrained context "B", finds no
candidates, and stops: the output "AB" has length 2, not
`len(prior) + n = 3`. -/
theorem generate_shorter_on_unknown_context :
    G9.prior.length = G9.k
    ∧ G9.generateText G9.build_probability_table (fun _ => 0) = ['A', 'B']
    ∧ (G9.generateText G9.build_probability_table (fun _ => 0)).length
        ≠ G9.prior.length + G9.size := by
  have hpt : G9.build_probability_table = [(['A'], [(['B'], (1 : ℚ))])] := by
    norm_num [Generator.build_probability_table, G9, alookup]
  have hpick : pickToken (0 : ℚ) [(['B'], (1 : ℚ))] 0 = ['B'] := by
    norm_num [pickToken]
  have hstep2 : G9.genLoop [(['A'], [(['B'], (1 : ℚ))])] (fun _ => 0) (0 + 1) 1
      ['B'] ['A', 'B'] = ['A', 'B'] := by
    rw [Generator.genLoop_succ]
    simp [alookup]
  have hsort : sortDesc [(['B'], (1 : ℚ))] = [(['B'], (1 : ℚ))] := rfl
  have hstep1 : G9.genLoop [(['A'], [(['B'], (1 : ℚ))])] (fun _ => 0) (1 + 1) 0
      ['A'] ['A'] = ['A', 'B'] := by
    rw [Generator.genLoop_succ]
    have e1 : alookup [(['A'], [(['B'], (1 : ℚ))])] ['A'] = some [(['B'], (1 : ℚ))] := rfl
    rw [e1]
    simp only [Option.getD_some, hsort, hpick]
    norm_num [G9]
    exact hstep2
  have hgen : G9.generateText [(['A'], [(['B'], (1 : ℚ))])] (fun _ => 0) = ['A', 'B'] :=
    hstep1
  rw [hpt]
  refine ⟨rfl, hgen, ?_⟩
  rw [hgen]
  decide

/-- Witness for C9 (amended) at the generator `G9` and its probability table. -/
theorem generateText_length_bounds_witness :
    G9.prior.length ≤ (G9.generateText [(['A'], [(['B'], (1 : ℚ))])] (fun _ => 0)).length
    ∧ (G9.generateText [(['A'], [(['B'], (1 : ℚ))])] (fun _ => 0)).length
        ≤ G9.prior.length + G9.size :=
  generateText_length_bounds G9 [(['A'], [(['B'], (1 : ℚ))])] (fun _ => 0) (by
    intro p hp q hq
    simp only [List.mem_singleton] at hp
    rw [hp] at hq
    simp only [List.mem_singleton] at hq
    subst hq
    rfl)

/-! ## EReal evaluation lemmas -/

theorem log2E_zero : log2E 0 = ⊥ := by
  simp [log2E]

theorem log2E_one : log2E 1 = 0 := by
  rw [log2E, if_neg one_ne_zero]
  rw [show (((1 : ℚ) : ℝ)) = 1 by norm_num, Real.logb_one, EReal.coe_zero]

theorem ereal_list_sum_bot {l : List EReal} (h : ⊥ ∈ l) : l.sum = ⊥ := by
  induction l with
  | nil => simp at h
  | cons hd tl ih =>
      rw [List.sum_cons]
      rcases List.mem_cons.mp h with h1 | h2
      · rw [← h1, EReal.bot_add]
      · rw [ih h2, EReal.add_bot]

theorem ereal_top_div_natCast {n : ℕ} (hn : 0 < n) :
    (⊤ : EReal) / (((n : ℝ)) : EReal) = ⊤ := by
  apply EReal.top_div_of_pos_ne_top
  · exact EReal.coe_pos.mpr (by exact_mod_cast hn)
  · exact EReal.coe_ne_top _

/-- If any valid window of the text has (truncated, smoothed) probability 0
under the model's logical tables, `compute_aic` silently returns `+∞`
(`log2(0.0) = -inf` enters the sum, is negated, and is divided by the
positive window count) — no error of any kind is raised. -/
theorem compute_aic_top_of_zero_prob (m : FiniteContextModel) (text : List Char)
    (i : ℕ) (hi : i < text.length - m.k)
    (hz : m.probValue ((text.drop i).take m.k) (text.getD (i + m.k) 'A')
      (getSigma text) = 0) :
    (m.compute_aic text).1 = ⊤ := by
  rw [(m.compute_aic_eq text).1]
  have hbot : (⊥ : EReal) ∈ (List.range (text.length - m.k)).map fun j =>
      log2E (m.probValue ((text.drop j).take m.k) (text.getD (j + m.k) 'A')
        (getSigma text)) := by
    refine List.mem_map.mpr ⟨i, List.mem_range.mpr hi, ?_⟩
    rw [hz, log2E_zero]
  rw [ereal_list_sum_bot hbot, EReal.neg_bot]
  exact ereal_top_div_natCast (by omega)

/-! ## Claim theorems: zero probabilities and non-finite AIC -/

/-- The model of C7's failing input: k = 1, alpha = 0, trained on `"AAAA"`. -/
def mA4 : FiniteContextModel :=
  FiniteContextModel.train ⟨1, 0, [], []⟩ ['A', 'A', 'A', 'A']

/-- The window at i = 2 of `"AAAB"` (context "A", symbol 'B') has probability
exactly 0 under `mA4` with alpha = 0. -/
theorem mA4_window2_zero :
    mA4.probValue ((['A', 'A', 'A', 'B'].drop 2).take mA4.k)
      (['A', 'A', 'A', 'B'].getD (2 + mA4.k) 'A') (getSigma ['A', 'A', 'A', 'B']) = 0 := by
  have hk : mA4.k = 1 := FiniteContextModel.train_k _ _
  have h0 : mA4.alpha = 0 := FiniteContextModel.train_alpha _ _
  rw [hk]
  show mA4.probValue ['A'] 'B' (getSigma ['A', 'A', 'A', 'B']) = 0
  have hc : mA4.countOf ['A'] 'B' = 0 := by decide
  unfold FiniteContextModel.probValue
  rw [hc, h0]
  have hz : (((0 : ℕ) : ℚ) + 0) = 0 := by norm_num
  rw [hz]
  rw [show cppTrunc 0 = 0 from rfl]
  simp

/-- C7 (counterexample): calling `compute_aic` on `"AAAB"` with the
alpha = 0 model trained on `"AAAA"` hits the zero probability of the unseen
pair ("A", 'B') and returns `+∞` — a non-finite value, with no
`StatisticalError` or any other defined error condition. -/
theorem compute_aic_silent_infinity :
    (mA4.compute_aic ['A', 'A', 'A', 'B']).1 = ⊤ := by
  apply compute_aic_top_of_zero_prob mA4 ['A', 'A', 'A', 'B'] 2
  · have hk : mA4.k = 1 := FiniteContextModel.train_k _ _
    rw [show (['A', 'A', 'A', 'B'] : List Char).length = 4 from rfl, hk]
    omega
  · exact mA4_window2_zero

/-- C7 (amended): with alpha = 0, an unseen symbol after a seen context gets
probability exactly 0 — but the caller taking logarithms does not raise any
defined error: whenever a valid window's probability is 0, `compute_aic`
returns the non-finite value `+∞` (IEEE `-inf` from `log2(0.0)` negated and
divided by the positive window count). -/
theorem alpha_zero_prob_and_aic_nonfinite :
    (∀ (m : FiniteContextModel) (context : List Char) (symbol : Char) (sigma : ℕ),
        m.alpha = 0 → 0 < m.totalOf context → m.countOf context symbol = 0 →
          (m.probability context symbol sigma).1 = 0)
    ∧ ∀ (m : FiniteContextModel) (text : List Char) (i : ℕ),
        i < text.length - m.k →
        m.probValue ((text.drop i).take m.k) (text.getD (i + m.k) 'A')
          (getSigma text) = 0 →
        (m.compute_aic text).1 = ⊤ := by
  constructor
  · intro m context symbol sigma h0 htot hc
    rw [FiniteContextModel.probability_fst]
    unfold FiniteContextModel.probValue
    rw [hc, h0]
    have hz : (((0 : ℕ) : ℚ) + 0) = 0 := by norm_num
    rw [hz, show cppTrunc 0 = 0 from rfl]
    simp
  · intro m text i hi hz
    exact compute_aic_top_of_zero_prob m text i hi hz

/-- Witness for C7 (amended) at the model `mA4` and the text `"AAAB"`. -/
theorem alpha_zero_prob_and_aic_nonfinite_witness :
    (mA4.alpha = 0 ∧ 0 < mA4.totalOf ['A'] ∧ mA4.countOf ['A'] 'B' = 0
      ∧ (mA4.probability ['A'] 'B' 2).1 = 0)
    ∧ (2 < (['A', 'A', 'A', 'B'] : List Char).length - mA4.k
      ∧ (mA4.compute_aic ['A', 'A', 'A', 'B']).1 = ⊤) := by
  have h0 : mA4.alpha = 0 := FiniteContextModel.train_alpha _ _
  have ht : 0 < mA4.totalOf ['A'] := by decide
  have hc : mA4.countOf ['A'] 'B' = 0 := by decide
  have hk : mA4.k = 1 := FiniteContextModel.train_k _ _
  have hi : 2 < (['A', 'A', 'A', 'B'] : List Char).length - mA4.k := by
    rw [show (['A', 'A', 'A', 'B'] : List Char).length = 4 from rfl, hk]
    omega
  exact ⟨⟨h0, ht, hc, alpha_zero_prob_and_aic_nonfinite.1 mA4 ['A'] 'B' 2 h0 ht hc⟩,
    ⟨hi, alpha_zero_prob_and_aic_nonfinite.2 mA4 ['A', 'A', 'A', 'B'] 2 hi mA4_window2_zero⟩⟩

/-! ## Claim theorems: the compression estimate -/

/-- The scorer model of C1's failing input: `MarkovModel` with k = 1,
alpha = 0, trained on `"AAAA"`. -/
def mNS : MarkovModel := (MarkovModel.mk0 1 0).train ['A', 'A', 'A', 'A']

/-- C1 (failing-input evaluation): on the fully deterministic input — model
trained on `"AAAA"`, scored sequence `"AAA"`, every window probability 1 —
the specification's cross-entropy code length is 0 bits, but
`MarkovModel::estimate_bits` returns 3 (it adds the number of distinct
symbols recorded per context window and never consults a probability), and
`MetaClass_C.cpp`'s `estimate_compression` returns 6 (it adds truncated
`log2(count+1)` per k-mer). Both implement the distinct-symbol-count style
proxy the specification forbids, not `Σ -log2 probability`. -/
theorem estimate_is_symbol_count_not_cross_entropy :
    mNS.estimate_bits ['A', 'A', 'A'] = 3
    ∧ estimate_compression 1 ['A', 'A', 'A'] (train_markov_model 1 ['A', 'A', 'A', 'A']) = 6
    ∧ specCompressionEstimate mNS ['A', 'A', 'A'] = 0
    ∧ ((3 : ℝ) : EReal) ≠ specCompressionEstimate mNS ['A', 'A', 'A']
    ∧ ((6 : ℝ) : EReal) ≠ specCompressionEstimate mNS ['A', 'A', 'A'] := by
  have hNS : mNS = ⟨1, 0, 4, [(['A'], [('A', 3)])]⟩ := by decide
  have h1 : mNS.estimate_bits ['A', 'A', 'A'] = 3 := by
    rw [hNS]
    simp [MarkovModel.estimate_bits, alookup, List.range_succ]
    norm_num
  have hm : train_markov_model 1 ['A', 'A', 'A', 'A'] = [(['A'], 2)] := by
    have hlog : Nat.log 2 5 = 2 := Nat.log_eq_of_pow_le_of_lt_pow (by norm_num) (by norm_num)
    have hcnt : ((List.range ((['A', 'A', 'A', 'A'] : List Char).length - 1 + 1)).foldl
        (fun acc i =>
          let kmer := ((['A', 'A', 'A', 'A'] : List Char).drop i).take 1
          let p := getOrInsert acc kmer 0
          aset p.2 kmer (p.1 + 1)) ([] : List (List Char × ℕ))) = [(['A'], 4)] := by decide
    simp only [train_markov_model]
    rw [hcnt]
    simp [hlog]
  have h2 : estimate_compression 1 ['A', 'A', 'A'] (train_markov_model 1 ['A', 'A', 'A', 'A'])
      = 6 := by
    rw [hm]
    simp [estimate_compression, alookup, List.range_succ]
    norm_num
  have h3 : specCompressionEstimate mNS ['A', 'A', 'A'] = 0 := by
    rw [hNS]
    simp [specCompressionEstimate, MarkovModel.countOf, MarkovModel.totalOf, alookup,
      List.range_succ]
    norm_num [log2E_one]
  refine ⟨h1, h2, h3, ?_, ?_⟩
  · rw [h3]
    intro hEq
    have := EReal.coe_eq_zero.mp hEq
    norm_num at this
  · rw [h3]
    intro hEq
    have := EReal.coe_eq_zero.mp hEq
    norm_num at this
